import Mathlib

/-!
Shallow embedding of the Techtonica production planner
(src/Builder.py and src/Builder2.py).

Products are strings, rates are rationals, recipes carry association
lists for their output and ingredient dictionaries.  The two scripts
share the graph builder; they differ in the flow-model compiler and in
the chain tracer, so both variants are embedded:

* Builder.py : flow constraints over all non-raw products with a `>=`
  constraint on the target, chain report via `produced_by` (first
  producing recipe with positive level) and `print_chain` (no cycle
  guard, modelled with fuel as `pchain_go`).
* Builder2.py : flow constraints over produced products, all of them
  equalities, chain report via `trace_production` (explicit visited
  set, modelled with fuel as `trace_go`), plus `unused_resources`.
-/

namespace Techtonica

abbrev Product := String

structure Recipe where
  recipe_id : Nat
  machine : String
  technology : String
  outputs : List (Product × ℚ)
  ingredients : List (Product × ℚ)
deriving DecidableEq

/-- Dictionary lookup on an association list (Python `d.get(p)` / `p in d`). -/
def getOpt (m : List (Product × ℚ)) (p : Product) : Option ℚ :=
  match m with
  | [] => none
  | (k, v) :: rest => if k = p then some v else getOpt rest p

/-- Python `d.get(p, 0)` / `d[p]` on a key known to be present. -/
def getD0 (m : List (Product × ℚ)) (p : Product) : ℚ :=
  (getOpt m p).getD 0

/-- `produced_products = {p for r in recipes for p in r['outputs'].keys()}` -/
def produced_products (recipes : List Recipe) : List Product :=
  ((recipes.map fun r => r.outputs.map Prod.fst).flatten).dedup

/-- `consumed_products = {p for r in recipes for p in r['ingredients'].keys()}` -/
def consumed_products (recipes : List Recipe) : List Product :=
  ((recipes.map fun r => r.ingredients.map Prod.fst).flatten).dedup

/-- `all_products = produced_products.union(consumed_products)` (Builder.py). -/
def all_products (recipes : List Recipe) : List Product :=
  (produced_products recipes ++ consumed_products recipes).dedup

/-- `raw_materials = consumed_products - produced_products` -/
def raw_materials (recipes : List Recipe) : List Product :=
  (consumed_products recipes).filter fun p => decide (p ∉ produced_products recipes)

/-- Comparison operator of a compiled linear constraint. -/
inductive CmpOp where
  | eq : CmpOp
  | ge : CmpOp
deriving DecidableEq

/-- One compiled flow-balance constraint: `Σ var[id] * coeff  op  rhs`. -/
structure FlowConstraint where
  product : Product
  terms : List (Nat × ℚ)
  op : CmpOp
  rhs : ℚ
deriving DecidableEq

/-- The linear terms appended for product `p` in the constraint loop:
for each recipe, `x[id]*outputs[p]` when `p` is an output key and
`-x[id]*ingredients[p]` when `p` is an ingredient key. -/
def flow_terms (recipes : List Recipe) (p : Product) : List (Nat × ℚ) :=
  ((recipes.map fun r =>
      (match getOpt r.outputs p with
       | some v => [(r.recipe_id, v)]
       | none => []) ++
      (match getOpt r.ingredients p with
       | some w => [(r.recipe_id, -w)]
       | none => [])).flatten)

/-- Builder.py constraint loop: iterate `all_products`, skip raw materials,
`>= target_min_production` for the target and `== 0` otherwise. -/
def build_constraints (recipes : List Recipe) (target : Product) (tmin : ℚ) :
    List FlowConstraint :=
  (all_products recipes).filterMap fun p =>
    if p ∈ raw_materials recipes then none
    else some ⟨p, flow_terms recipes p,
               if p = target then CmpOp.ge else CmpOp.eq,
               if p = target then tmin else 0⟩

/-- Builder2.py constraint loop: iterate `produced_products`, always an
equality, with right-hand side `target_min_production` for the target. -/
def build_constraints2 (recipes : List Recipe) (target : Product) (tmin : ℚ) :
    List FlowConstraint :=
  (produced_products recipes).map fun p =>
    ⟨p, flow_terms recipes p, CmpOp.eq, if p = target then tmin else 0⟩

/-- Value of a term list under an assignment of recipe levels. -/
def eval_terms (ts : List (Nat × ℚ)) (x : Nat → ℚ) : ℚ :=
  (ts.map fun t => x t.1 * t.2).sum

/-- Total production rate of `p`: `Σ_r x[r] * outputs[r].get(p, 0)`. -/
def total_out (recipes : List Recipe) (x : Nat → ℚ) (p : Product) : ℚ :=
  (recipes.map fun r => x r.recipe_id * getD0 r.outputs p).sum

/-- Total consumption rate of `p`: `Σ_r x[r] * ingredients[r].get(p, 0)`. -/
def total_in (recipes : List Recipe) (x : Nat → ℚ) (p : Product) : ℚ :=
  (recipes.map fun r => x r.recipe_id * getD0 r.ingredients p).sum

/-- One printed line of a chain report.  The Python scripts print strings;
we keep the indentation level and the numeric payload of each line. -/
inductive Line where
  | raw (indent : Nat) (product : Product) (required : ℚ)
  | use (indent : Nat) (machine technology : String) (level : ℚ)
      (product : Product) (rate : ℚ)
  | noRecipe (indent : Nat) (product : Product) (required : ℚ)
  | cycle (indent : Nat) (product : Product)
deriving DecidableEq

/-- Builder.py scale: `0` when the production rate is `== 0`, otherwise
`required / production_rate`. -/
def scale1 (required prate : ℚ) : ℚ :=
  if prate = 0 then 0 else required / prate

/-- Builder2.py scale: `required / output_rate if output_rate > 0 else 0`. -/
def scale2 (required orate : ℚ) : ℚ :=
  if 0 < orate then required / orate else 0

/-- Builder.py `produced_by`: the first recipe (in recipe order) with solved
level `> 0` whose outputs contain the product. -/
def produced_by (recipes : List Recipe) (x : Nat → ℚ) (p : Product) :
    Option Recipe :=
  (recipes.filter fun r => decide (0 < x r.recipe_id)).find? fun r =>
    (getOpt r.outputs p).isSome

/-- Pending work of Builder.py's `print_chain`: either one `(product,
required_amount)` node or the remaining ingredient list of a recipe
(`mult` is the precomputed `x_val * scale`). -/
inductive PTask where
  | prod (product : Product) (required : ℚ) (indent : Nat)
  | ings (l : List (Product × ℚ)) (mult : ℚ) (indent : Nat)

/-- Fuel-indexed embedding of Builder.py's `print_chain` (the source has no
cycle guard, so it need not terminate; `none` means the fuel ran out). -/
def pchain_go (recipes : List Recipe) (x : Nat → ℚ) :
    Nat → PTask → Option (List Line)
  | 0, _ => none
  | n + 1, PTask.prod p req ind =>
    if p ∈ raw_materials recipes then some [Line.raw ind p req]
    else
      match produced_by recipes x p with
      | some r =>
        let prate := getD0 r.outputs p * x r.recipe_id
        let scale := scale1 req prate
        match pchain_go recipes x n
            (PTask.ings r.ingredients (x r.recipe_id * scale) (ind + 4)) with
        | some ls =>
          some (Line.use ind r.machine r.technology (x r.recipe_id * scale) p
                  (prate * scale) :: ls)
        | none => none
      | none => some [Line.noRecipe ind p req]
  | _ + 1, PTask.ings [] _ _ => some []
  | n + 1, PTask.ings ((ing, irate) :: rest) mult ind =>
    match pchain_go recipes x n (PTask.prod ing (irate * mult) ind) with
    | some ls1 =>
      match pchain_go recipes x n (PTask.ings rest mult ind) with
      | some ls2 => some (ls1 ++ ls2)
      | none => none
    | none => none

/-- `print_chain(product, required, indent=0)` terminates (completes within
some finite amount of fuel). -/
def PrintChainTerminates (recipes : List Recipe) (x : Nat → ℚ)
    (p : Product) (req : ℚ) : Prop :=
  ∃ n, (pchain_go recipes x n (PTask.prod p req 0)).isSome

/-- The machine line Builder2's tracer prints for one producing recipe `r`
at solved level `xv`: machine, technology, `x_val * scale_factor`, product,
`output_rate * scale_factor`. -/
def useLine (ind : Nat) (r : Recipe) (xv : ℚ) (p : Product) (req : ℚ) : Line :=
  Line.use ind r.machine r.technology
    (xv * scale2 req (getD0 r.outputs p * xv)) p
    ((getD0 r.outputs p * xv) * scale2 req (getD0 r.outputs p * xv))

/-- Pending work of Builder2.py's `trace_production`: one `(product,
required_amount)` node, the remaining producing-recipe loop, or the
remaining ingredient loop of one recipe. -/
inductive TTask where
  | prod (product : Product) (required : ℚ) (indent : Nat)
  | recs (rs : List Recipe) (product : Product) (required : ℚ) (indent : Nat)
  | ings (l : List (Product × ℚ)) (mult : ℚ) (indent : Nat)

/-- Fuel-indexed embedding of Builder2.py's `trace_production`.  The second
component of the result is the (mutable, shared) `visited` set after the
call: the source adds `product` before the raw-material and
missing-recipe checks and removes it only after the producing-recipe
loop, so those early return paths leak `product` into `visited`. -/
def trace_go (recipes : List Recipe) (x : Nat → ℚ) :
    Nat → TTask → List Product → Option (List Line × List Product)
  | 0, _, _ => none
  | n + 1, TTask.prod p req ind, visited =>
    if p ∈ visited then some ([Line.cycle ind p], visited)
    else
      if p ∈ raw_materials recipes then some ([Line.raw ind p req], p :: visited)
      else
        if recipes.filter (fun r => (getOpt r.outputs p).isSome) = [] then
          some ([Line.noRecipe ind p req], p :: visited)
        else
          match trace_go recipes x n
              (TTask.recs (recipes.filter fun r => (getOpt r.outputs p).isSome)
                p req ind) (p :: visited) with
          | some (ls, v2) => some (ls, v2.erase p)
          | none => none
  | _ + 1, TTask.recs [] _ _ _, visited => some ([], visited)
  | n + 1, TTask.recs (r :: rs) p req ind, visited =>
    if 0 < x r.recipe_id then
      match trace_go recipes x n
          (TTask.ings r.ingredients
            (x r.recipe_id * scale2 req (getD0 r.outputs p * x r.recipe_id))
            ind) visited with
      | some (ls1, v1) =>
        match trace_go recipes x n (TTask.recs rs p req ind) v1 with
        | some (ls2, v2) =>
          some (useLine ind r (x r.recipe_id) p req :: (ls1 ++ ls2), v2)
        | none => none
      | none => none
    else trace_go recipes x n (TTask.recs rs p req ind) visited
  | _ + 1, TTask.ings [] _ _, visited => some ([], visited)
  | n + 1, TTask.ings ((ing, irate) :: rest) mult ind, visited =>
    match trace_go recipes x n (TTask.prod ing (irate * mult) (ind + 4)) visited with
    | some (ls1, v1) =>
      match trace_go recipes x n (TTask.ings rest mult ind) v1 with
      | some (ls2, v2) => some (ls1 ++ ls2, v2)
      | none => none
    | none => none

/-- Builder2.py `unused_resources`: total production minus total
consumption per produced product, restricted to the recipes with truthy
solved level (the `if x[r].varValue` filter in the source sums). -/
def total_produced (recipes : List Recipe) (x : Nat → ℚ) (p : Product) : ℚ :=
  ((recipes.filter fun r => decide (x r.recipe_id ≠ 0)).map fun r =>
    x r.recipe_id * getD0 r.outputs p).sum

/-- Source counterpart of `total_produced` for consumption. -/
def total_consumed (recipes : List Recipe) (x : Nat → ℚ) (p : Product) : ℚ :=
  ((recipes.filter fun r => decide (x r.recipe_id ≠ 0)).map fun r =>
    x r.recipe_id * getD0 r.ingredients p).sum

/-- Builder2.py unused-resource audit: keep a produced product exactly when
its total production strictly exceeds its total consumption. -/
def unused_resources (recipes : List Recipe) (x : Nat → ℚ) :
    List (Product × ℚ) :=
  (produced_products recipes).filterMap fun p =>
    if total_consumed recipes x p < total_produced recipes x p then
      some (p, total_produced recipes x p - total_consumed recipes x p)
    else none

/-! ### Demo configurations used by witnesses and counterexamples -/

/-- Demo recipe set: recipe 0 turns 3 A/min into 2 B/min, recipe 1 turns
4 B/min into 1 T0/min.  A is raw, B intermediate, T0 the target. -/
def demoChain : List Recipe :=
  [⟨0, "M0", "T", [("B", 2)], [("A", 3)]⟩,
   ⟨1, "M1", "T", [("T0", 1)], [("B", 4)]⟩]

/-- Demo recipe set with surplus: recipe 0 makes 5 B/min from 1 A/min,
recipe 1 makes 1 C/min from 2 B/min, so B has surplus 3 at level 1. -/
def demoSurplus : List Recipe :=
  [⟨0, "M0", "T", [("B", 5)], [("A", 1)]⟩,
   ⟨1, "M1", "T", [("C", 1)], [("B", 2)]⟩]

/-- Recipe for the rate-consistency witness: 3 Q/min from 4 A/min. -/
def rateDemoRecipe : Recipe := ⟨0, "M", "T", [("Q", 3)], [("A", 4)]⟩

/-- Number of known products not yet on the visited list: the measure that
shrinks every time the tracer expands a new product. -/
def unseen (recipes : List Recipe) (v : List Product) : Nat :=
  ((all_products recipes).toFinset.filter fun q => q ∉ v).card

/-- Solved plan running every recipe at level 1. -/
def levelOne : Nat → ℚ := fun _ => 1

/-- Solved plan with every recipe at level 0. -/
def levelZero : Nat → ℚ := fun _ => 0

/-- A recipe at positive level that consumes the product it produces. -/
def selfLoopRecipes : List Recipe := [⟨0, "M", "T", [("B", 1)], [("B", 1)]⟩]

/-- Two active recipes producing the same product Q. -/
def twoProducerRecipes : List Recipe :=
  [⟨0, "M0", "T", [("Q", 1)], [("A", 2)]⟩,
   ⟨1, "M1", "T", [("Q", 3)], [("C", 5)]⟩]

/-- Target TP needs A and B, produced by M1 and M2, which both consume the
raw material W — the shared-raw scenario for the visited-set guard. -/
def sharedRawRecipes : List Recipe :=
  [⟨0, "M0", "T", [("TP", 1)], [("A", 1), ("B", 1)]⟩,
   ⟨1, "M1", "T", [("A", 1)], [("W", 1)]⟩,
   ⟨2, "M2", "T", [("B", 1)], [("W", 1)]⟩]

/-- One recipe producing Q, held at solved level 0. -/
def idleProducerRecipes : List Recipe := [⟨0, "M", "T", [("Q", 1)], [("A", 1)]⟩]

/-! ### Graph builder lemmas -/

theorem getOpt_isSome_iff (m : List (Product × ℚ)) (p : Product) :
    (getOpt m p).isSome ↔ p ∈ m.map Prod.fst := by
  induction m with
  | nil => simp [getOpt]
  | cons kv rest ih =>
    obtain ⟨k, v⟩ := kv
    by_cases hk : k = p
    · subst hk
      simp [getOpt]
    · simp [getOpt, hk, ih, Ne.symm hk]

theorem mem_produced_iff (recipes : List Recipe) (p : Product) :
    p ∈ produced_products recipes ↔
      ∃ r ∈ recipes, (getOpt r.outputs p).isSome := by
  simp [produced_products, List.mem_dedup, List.mem_flatten, getOpt_isSome_iff]

theorem raw_not_produced {recipes : List Recipe} {p : Product}
    (h : p ∈ raw_materials recipes) : p ∉ produced_products recipes := by
  simp only [raw_materials, List.mem_filter, decide_eq_true_eq] at h
  exact h.2

theorem produced_not_raw {recipes : List Recipe} {p : Product}
    (h : p ∈ produced_products recipes) : p ∉ raw_materials recipes :=
  fun hr => raw_not_produced hr h

/-- C7: for every recipe set the graph builder classifies products with
`raw = consumed - produced`, so raw and produced are disjoint; the
classification is a function of the recipe list alone (`raw_materials`
takes no solved levels). -/
theorem raw_eq_consumed_minus_produced (recipes : List Recipe) (p : Product) :
    (p ∈ raw_materials recipes ↔
      p ∈ consumed_products recipes ∧ p ∉ produced_products recipes) ∧
    ¬(p ∈ raw_materials recipes ∧ p ∈ produced_products recipes) := by
  constructor
  · simp [raw_materials, List.mem_filter]
  · rintro ⟨hr, hp⟩
    exact raw_not_produced hr hp

/-- C7 witness: the classification facts at a concrete two-recipe set. -/
theorem raw_eq_consumed_minus_produced_witness :
    (("A" : Product) ∈ raw_materials
        [⟨0, "M0", "T", [("Q", 1)], [("A", 2)]⟩,
         ⟨1, "M1", "T", [("Q", 3)], [("C", 5)]⟩] ↔
      ("A" : Product) ∈ consumed_products
        [⟨0, "M0", "T", [("Q", 1)], [("A", 2)]⟩,
         ⟨1, "M1", "T", [("Q", 3)], [("C", 5)]⟩] ∧
      ("A" : Product) ∉ produced_products
        [⟨0, "M0", "T", [("Q", 1)], [("A", 2)]⟩,
         ⟨1, "M1", "T", [("Q", 3)], [("C", 5)]⟩]) ∧
    ¬(("A" : Product) ∈ raw_materials
        [⟨0, "M0", "T", [("Q", 1)], [("A", 2)]⟩,
         ⟨1, "M1", "T", [("Q", 3)], [("C", 5)]⟩] ∧
      ("A" : Product) ∈ produced_products
        [⟨0, "M0", "T", [("Q", 1)], [("A", 2)]⟩,
         ⟨1, "M1", "T", [("Q", 3)], [("C", 5)]⟩]) :=
  raw_eq_consumed_minus_produced _ "A"

/-! ### Flow model compiler lemmas -/

theorem eval_terms_append (a b : List (Nat × ℚ)) (x : Nat → ℚ) :
    eval_terms (a ++ b) x = eval_terms a x + eval_terms b x := by
  simp [eval_terms]

theorem eval_flow_terms (recipes : List Recipe) (p : Product) (x : Nat → ℚ) :
    eval_terms (flow_terms recipes p) x =
      total_out recipes x p - total_in recipes x p := by
  induction recipes with
  | nil => simp [eval_terms, flow_terms, total_out, total_in]
  | cons r rs ih =>
    have hsplit : flow_terms (r :: rs) p =
        ((match getOpt r.outputs p with
          | some v => [(r.recipe_id, v)]
          | none => []) ++
         (match getOpt r.ingredients p with
          | some w => [(r.recipe_id, -w)]
          | none => [])) ++ flow_terms rs p := by
      simp [flow_terms]
    rw [hsplit, eval_terms_append, eval_terms_append, ih]
    cases ho : getOpt r.outputs p <;> cases hi : getOpt r.ingredients p <;>
      simp [total_out, total_in, getD0, ho, hi, eval_terms] <;> ring

theorem mem_build_constraints {recipes : List Recipe} {t : Product} {m : ℚ}
    {c : FlowConstraint} :
    c ∈ build_constraints recipes t m ↔
      ∃ p ∈ all_products recipes, p ∉ raw_materials recipes ∧
        c = ⟨p, flow_terms recipes p,
             if p = t then CmpOp.ge else CmpOp.eq,
             if p = t then m else 0⟩ := by
  simp only [build_constraints, List.mem_filterMap]
  constructor
  · rintro ⟨p, hp, hc⟩
    by_cases hr : p ∈ raw_materials recipes
    · simp [hr] at hc
    · simp only [hr, if_false, Option.some.injEq] at hc
      exact ⟨p, hp, hr, hc.symm⟩
  · rintro ⟨p, hp, hr, rfl⟩
    exact ⟨p, hp, by simp [hr]⟩

theorem bc_map_product (recipes : List Recipe) (t : Product) (m : ℚ) :
    (build_constraints recipes t m).map FlowConstraint.product =
      (all_products recipes).filter
        (fun p => decide (p ∉ raw_materials recipes)) := by
  show ((all_products recipes).filterMap _).map _ = _
  induction all_products recipes with
  | nil => rfl
  | cons a l ih =>
    by_cases ha : a ∈ raw_materials recipes <;>
      simp [List.filterMap_cons, ha, ih]

theorem bc2_map_product (recipes : List Recipe) (t : Product) (m : ℚ) :
    (build_constraints2 recipes t m).map FlowConstraint.product =
      produced_products recipes := by
  simp only [build_constraints2, List.map_map]
  exact List.map_id _

/-- C1 (amended): Builder.py compiles the target's flow constraint as the
inequality `>= target_min_rate`; Builder2.py compiles it as the equality
`= target_min_rate`. -/
theorem target_constraint_op (recipes : List Recipe) (target : Product)
    (tmin : ℚ) (c : FlowConstraint) :
    (c ∈ build_constraints recipes target tmin → c.product = target →
      c.op = CmpOp.ge ∧ c.rhs = tmin) ∧
    (c ∈ build_constraints2 recipes target tmin → c.product = target →
      c.op = CmpOp.eq ∧ c.rhs = tmin) := by
  constructor
  · intro hc hprod
    rcases mem_build_constraints.mp hc with ⟨p, _, _, rfl⟩
    simp only at hprod
    subst hprod
    simp
  · intro hc hprod
    simp only [build_constraints2, List.mem_map] at hc
    rcases hc with ⟨p, _, rfl⟩
    simp only at hprod
    subst hprod
    simp

/-- C1 witness: at the demo chain, the two compiled target constraints. -/
theorem target_constraint_op_witness :
    ((⟨"T0", flow_terms demoChain "T0", CmpOp.ge, 7⟩ : FlowConstraint).op =
        CmpOp.ge ∧
      (⟨"T0", flow_terms demoChain "T0", CmpOp.ge, 7⟩ : FlowConstraint).rhs =
        7) ∧
    ((⟨"T0", flow_terms demoChain "T0", CmpOp.eq, 7⟩ : FlowConstraint).op =
        CmpOp.eq ∧
      (⟨"T0", flow_terms demoChain "T0", CmpOp.eq, 7⟩ : FlowConstraint).rhs =
        7) :=
  ⟨(target_constraint_op demoChain "T0" 7 _).1
      (by
        rw [mem_build_constraints]
        refine ⟨"T0", by decide, by decide, ?_⟩
        simp) rfl,
   (target_constraint_op demoChain "T0" 7 _).2
      (by
        simp only [build_constraints2, List.mem_map]
        refine ⟨"T0", by decide, ?_⟩
        simp) rfl⟩

/-- C1 counterexample: on the demo chain Builder2's compiled model gives
the target product an equality constraint, not a `>=` inequality. -/
theorem builder2_target_constraint_is_equality :
    build_constraints2 demoChain "T0" 7 =
      [⟨"B", [(0, 2), (1, -4)], CmpOp.eq, 0⟩,
       ⟨"T0", [(1, 1)], CmpOp.eq, 7⟩] ∧
    CmpOp.eq ≠ CmpOp.ge := by
  constructor
  · decide
  · decide

/-- C3: every produced, non-raw product other than the target gets exactly
one flow-balance constraint in either compiled model, an equality with
right-hand side `0` over the terms `var[r]*outputs[r][p]` minus
`var[r]*ingredients[r][p]`; the compiled product lists have no
duplicates; raw products get no flow-balance constraint; and the terms
evaluate to total production minus total consumption under every
assignment. -/
theorem flow_balance_constraints (recipes : List Recipe) (target : Product)
    (tmin : ℚ) (p : Product) :
    (p ∈ produced_products recipes → p ∉ raw_materials recipes → p ≠ target →
      (⟨p, flow_terms recipes p, CmpOp.eq, 0⟩ : FlowConstraint) ∈
          build_constraints recipes target tmin ∧
      (⟨p, flow_terms recipes p, CmpOp.eq, 0⟩ : FlowConstraint) ∈
          build_constraints2 recipes target tmin ∧
      (∀ c ∈ build_constraints recipes target tmin, c.product = p →
        c = ⟨p, flow_terms recipes p, CmpOp.eq, 0⟩) ∧
      (∀ c ∈ build_constraints2 recipes target tmin, c.product = p →
        c = ⟨p, flow_terms recipes p, CmpOp.eq, 0⟩)) ∧
    ((build_constraints recipes target tmin).map FlowConstraint.product).Nodup ∧
    ((build_constraints2 recipes target tmin).map FlowConstraint.product).Nodup ∧
    (p ∈ raw_materials recipes →
      (∀ c ∈ build_constraints recipes target tmin, c.product ≠ p) ∧
      (∀ c ∈ build_constraints2 recipes target tmin, c.product ≠ p)) ∧
    (∀ y : Nat → ℚ,
      eval_terms (flow_terms recipes p) y =
        total_out recipes y p - total_in recipes y p) := by
  refine ⟨?_, ?_, ?_, ?_, eval_flow_terms recipes p⟩
  · intro hprod hraw hne
    have hall : p ∈ all_products recipes := by
      simp only [all_products, List.mem_dedup, List.mem_append]
      exact Or.inl hprod
    refine ⟨?_, ?_, ?_, ?_⟩
    · rw [mem_build_constraints]
      exact ⟨p, hall, hraw, by simp [hne]⟩
    · simp only [build_constraints2, List.mem_map]
      exact ⟨p, hprod, by simp [hne]⟩
    · intro c hc hcp
      rcases mem_build_constraints.mp hc with ⟨q, _, _, rfl⟩
      simp only at hcp
      subst hcp
      simp [hne]
    · intro c hc hcp
      simp only [build_constraints2, List.mem_map] at hc
      rcases hc with ⟨q, _, rfl⟩
      simp only at hcp
      subst hcp
      simp [hne]
  · rw [bc_map_product]
    exact (List.nodup_dedup _).filter _
  · rw [bc2_map_product]
    exact List.nodup_dedup _
  · intro hraw
    constructor
    · intro c hc
      rcases mem_build_constraints.mp hc with ⟨q, _, hq, rfl⟩
      simp only [ne_eq]
      intro h
      exact hq (h ▸ hraw)
    · intro c hc
      simp only [build_constraints2, List.mem_map] at hc
      rcases hc with ⟨q, hq, rfl⟩
      simp only [ne_eq]
      intro h
      exact raw_not_produced hraw (h ▸ hq)

/-- C3 witness: the intermediate product B of the demo chain gets its
equality constraint in both compiled models, and the constraint terms
evaluate to net flow at the all-2 assignment. -/
theorem flow_balance_constraints_witness :
    (⟨"B", flow_terms demoChain "B", CmpOp.eq, 0⟩ : FlowConstraint) ∈
        build_constraints demoChain "T0" 7 ∧
    (⟨"B", flow_terms demoChain "B", CmpOp.eq, 0⟩ : FlowConstraint) ∈
        build_constraints2 demoChain "T0" 7 ∧
    eval_terms (flow_terms demoChain "B") (fun _ => 2) =
      total_out demoChain (fun _ => 2) "B" -
        total_in demoChain (fun _ => 2) "B" :=
  ⟨(((flow_balance_constraints demoChain "T0" 7 "B").1 (by decide) (by decide)
      (by decide))).1,
   (((flow_balance_constraints demoChain "T0" 7 "B").1 (by decide) (by decide)
      (by decide))).2.1,
   (flow_balance_constraints demoChain "T0" 7 "B").2.2.2.2 (fun _ => 2)⟩

/-! ### Unused-resource audit -/

theorem total_produced_eq_total_out (recipes : List Recipe) (x : Nat → ℚ)
    (p : Product) : total_produced recipes x p = total_out recipes x p := by
  unfold total_produced total_out
  induction recipes with
  | nil => rfl
  | cons r rs ih =>
    simp only [ne_eq, decide_not] at ih ⊢
    by_cases h : x r.recipe_id = 0 <;> simp [List.filter_cons, h, ih]

theorem total_consumed_eq_total_in (recipes : List Recipe) (x : Nat → ℚ)
    (p : Product) : total_consumed recipes x p = total_in recipes x p := by
  unfold total_consumed total_in
  induction recipes with
  | nil => rfl
  | cons r rs ih =>
    simp only [ne_eq, decide_not] at ih ⊢
    by_cases h : x r.recipe_id = 0 <;> simp [List.filter_cons, h, ih]

/-- C9: the audit result contains `(p, v)` exactly when `p` is produced
by some recipe, its total solved production strictly exceeds its total
solved consumption, and `v` is the surplus; raw materials never appear. -/
theorem unused_resources_spec (recipes : List Recipe) (x : Nat → ℚ)
    (p : Product) (v : ℚ) :
    ((p, v) ∈ unused_resources recipes x ↔
      p ∈ produced_products recipes ∧
      total_in recipes x p < total_out recipes x p ∧
      v = total_out recipes x p - total_in recipes x p) ∧
    (p ∈ raw_materials recipes → ∀ w : ℚ, (p, w) ∉ unused_resources recipes x) := by
  constructor
  · constructor
    · intro h
      simp only [unused_resources, List.mem_filterMap] at h
      rcases h with ⟨q, hq, hsome⟩
      by_cases hc : total_consumed recipes x q < total_produced recipes x q
      · simp only [hc, if_true, Option.some.injEq, Prod.mk.injEq] at hsome
        rcases hsome with ⟨rfl, rfl⟩
        rw [total_produced_eq_total_out, total_consumed_eq_total_in] at hc
        rw [total_produced_eq_total_out, total_consumed_eq_total_in]
        exact ⟨hq, hc, rfl⟩
      · simp [hc] at hsome
    · rintro ⟨hq, hlt, rfl⟩
      simp only [unused_resources, List.mem_filterMap]
      refine ⟨p, hq, ?_⟩
      rw [total_produced_eq_total_out, total_consumed_eq_total_in]
      simp [hlt]
  · intro hraw w hmem
    simp only [unused_resources, List.mem_filterMap] at hmem
    rcases hmem with ⟨q, hq, hsome⟩
    by_cases hc : total_consumed recipes x q < total_produced recipes x q
    · simp only [hc, if_true, Option.some.injEq, Prod.mk.injEq] at hsome
      exact raw_not_produced hraw (hsome.1 ▸ hq)
    · simp [hc] at hsome

/-- C9 witness: at the surplus demo with all levels 1, the audit holds B
with surplus 3 and rejects the raw material A. -/
theorem unused_resources_spec_witness :
    (("B", (3 : ℚ)) ∈ unused_resources demoSurplus (fun _ => 1) ↔
      "B" ∈ produced_products demoSurplus ∧
      total_in demoSurplus (fun _ => 1) "B" <
        total_out demoSurplus (fun _ => 1) "B" ∧
      (3 : ℚ) = total_out demoSurplus (fun _ => 1) "B" -
        total_in demoSurplus (fun _ => 1) "B") ∧
    ("A", (2 : ℚ)) ∉ unused_resources demoSurplus (fun _ => 1) :=
  ⟨(unused_resources_spec demoSurplus (fun _ => 1) "B" 3).1,
   (unused_resources_spec demoSurplus (fun _ => 1) "A" 0).2 (by decide) 2⟩

/-! ### Scale factors -/

/-- C8: both tracers define the per-recipe scale as `required / produced_rate`
when the produced rate is nonzero and as `0` when it is `0`, so for the
non-negative rates the recipes carry, the division is only taken with a
nonzero divisor (and then genuinely inverts: `scale * produced = required`),
and the two variants agree. -/
theorem scale_guards_division (req orate : ℚ) (h : 0 ≤ orate) :
    (orate = 0 → scale1 req orate = 0 ∧ scale2 req orate = 0) ∧
    (orate ≠ 0 →
      scale1 req orate = req / orate ∧ scale2 req orate = req / orate ∧
      scale2 req orate * orate = req) ∧
    scale1 req orate = scale2 req orate := by
  by_cases h0 : orate = 0
  · subst h0
    simp [scale1, scale2]
  · have hpos : 0 < orate := lt_of_le_of_ne h (Ne.symm h0)
    refine ⟨fun hz => absurd hz h0, fun _ => ⟨?_, ?_, ?_⟩, ?_⟩
    · simp [scale1, h0]
    · simp [scale2, hpos]
    · simp only [scale2, hpos, if_true]
      exact div_mul_cancel₀ req h0
    · simp [scale1, scale2, h0, hpos]

/-- C8 witness: scale of required 6 against produced rate 2. -/
theorem scale_guards_division_witness :
    (scale1 6 2 = 6 / 2 ∧ scale2 6 2 = 6 / 2 ∧ scale2 6 2 * 2 = 6) ∧
    scale1 6 2 = scale2 6 2 :=
  ⟨(scale_guards_division 6 2 (by norm_num)).2.1 (by norm_num),
   (scale_guards_division 6 2 (by norm_num)).2.2⟩

/-- C10: when the tracer expands a producing recipe whose produced rate is
strictly positive for a required rate `req`, the machine line it prints
reports production exactly `req`, and every ingredient recursion receives
`ing_rate * level * scale = ing_rate * req / output_rate`. -/
theorem chain_rates_consistent (r : Recipe) (xv : ℚ) (p : Product) (req : ℚ)
    (ind : Nat) (irate : ℚ) (h : 0 < getD0 r.outputs p * xv) :
    useLine ind r xv p req =
      Line.use ind r.machine r.technology
        (xv * (req / (getD0 r.outputs p * xv))) p req ∧
    irate * (xv * scale2 req (getD0 r.outputs p * xv)) =
      irate * req / getD0 r.outputs p := by
  have hxo : getD0 r.outputs p * xv ≠ 0 := ne_of_gt h
  have hoz : getD0 r.outputs p ≠ 0 := left_ne_zero_of_mul hxo
  have hxz : xv ≠ 0 := right_ne_zero_of_mul hxo
  have hcancel : (getD0 r.outputs p * xv) * (req / (getD0 r.outputs p * xv)) =
      req := by
    rw [mul_comm]
    exact div_mul_cancel₀ req hxo
  constructor
  · unfold useLine scale2
    rw [if_pos h, hcancel]
  · unfold scale2
    rw [if_pos h]
    field_simp
    ring

/-- C10 witness: recipe making 3 Q/min at level 2, asked for 6 Q/min. -/
theorem chain_rates_consistent_witness :
    useLine 0 rateDemoRecipe 2 "Q" 6 =
      Line.use 0 "M" "T"
        (2 * (6 / (getD0 rateDemoRecipe.outputs "Q" * 2))) "Q" 6 ∧
    4 * (2 * scale2 6 (getD0 rateDemoRecipe.outputs "Q" * 2)) =
      4 * 6 / getD0 rateDemoRecipe.outputs "Q" :=
  chain_rates_consistent rateDemoRecipe 2 "Q" 6 0 4
    (by norm_num [rateDemoRecipe, getD0, getOpt])

/-! ### Builder2 tracer: visited-set growth and fuel monotonicity -/

theorem trace_go_visited_subset (recipes : List Recipe) (x : Nat → ℚ) :
    ∀ (n : Nat) (t : TTask) (v : List Product) (ls : List Line)
      (w : List Product), trace_go recipes x n t v = some (ls, w) →
      ∀ s ∈ v, s ∈ w := by
  intro n
  induction n with
  | zero =>
    intro t v ls w h
    simp [trace_go] at h
  | succ n ih =>
    intro t v ls w h s hs
    cases t with
    | prod p req ind =>
      simp only [trace_go] at h
      by_cases hv : p ∈ v
      · rw [if_pos hv] at h
        simp only [Option.some.injEq, Prod.mk.injEq] at h
        exact h.2 ▸ hs
      · rw [if_neg hv] at h
        by_cases hraw : p ∈ raw_materials recipes
        · rw [if_pos hraw] at h
          simp only [Option.some.injEq, Prod.mk.injEq] at h
          exact h.2 ▸ List.mem_cons_of_mem _ hs
        · rw [if_neg hraw] at h
          by_cases hempty :
              recipes.filter (fun r => (getOpt r.outputs p).isSome) = []
          · rw [if_pos hempty] at h
            simp only [Option.some.injEq, Prod.mk.injEq] at h
            exact h.2 ▸ List.mem_cons_of_mem _ hs
          · rw [if_neg hempty] at h
            cases hrec : trace_go recipes x n
                (TTask.recs (recipes.filter fun r => (getOpt r.outputs p).isSome)
                  p req ind) (p :: v) with
            | none =>
              simp only [hrec] at h
              exact Option.noConfusion h
            | some res =>
              obtain ⟨ls2, v2⟩ := res
              simp only [hrec, Option.some.injEq, Prod.mk.injEq] at h
              have hs2 : s ∈ v2 :=
                ih _ _ _ _ hrec s (List.mem_cons_of_mem _ hs)
              have hsp : s ≠ p := fun hsp => hv (hsp ▸ hs)
              exact h.2 ▸ (List.mem_erase_of_ne hsp).mpr hs2
    | recs rs p req ind =>
      cases rs with
      | nil =>
        simp only [trace_go, Option.some.injEq, Prod.mk.injEq] at h
        exact h.2 ▸ hs
      | cons r rest =>
        simp only [trace_go] at h
        by_cases hxr : 0 < x r.recipe_id
        · rw [if_pos hxr] at h
          cases h1 : trace_go recipes x n
              (TTask.ings r.ingredients
                (x r.recipe_id * scale2 req (getD0 r.outputs p * x r.recipe_id))
                ind) v with
          | none =>
            simp only [h1] at h
            exact Option.noConfusion h
          | some res1 =>
            obtain ⟨ls1, v1⟩ := res1
            simp only [h1] at h
            cases h2 : trace_go recipes x n (TTask.recs rest p req ind) v1 with
            | none =>
              simp only [h2] at h
              exact Option.noConfusion h
            | some res2 =>
              obtain ⟨ls2, v2⟩ := res2
              simp only [h2, Option.some.injEq, Prod.mk.injEq] at h
              exact h.2 ▸ ih _ _ _ _ h2 s (ih _ _ _ _ h1 s hs)
        · rw [if_neg hxr] at h
          exact ih _ _ _ _ h s hs
    | ings l mult ind =>
      cases l with
      | nil =>
        simp only [trace_go, Option.some.injEq, Prod.mk.injEq] at h
        exact h.2 ▸ hs
      | cons iv rest =>
        obtain ⟨ing, irate⟩ := iv
        simp only [trace_go] at h
        cases h1 : trace_go recipes x n
            (TTask.prod ing (irate * mult) (ind + 4)) v with
        | none =>
          simp only [h1] at h
          exact Option.noConfusion h
        | some res1 =>
          obtain ⟨ls1, v1⟩ := res1
          simp only [h1] at h
          cases h2 : trace_go recipes x n (TTask.ings rest mult ind) v1 with
          | none =>
            simp only [h2] at h
            exact Option.noConfusion h
          | some res2 =>
            obtain ⟨ls2, v2⟩ := res2
            simp only [h2, Option.some.injEq, Prod.mk.injEq] at h
            exact h.2 ▸ ih _ _ _ _ h2 s (ih _ _ _ _ h1 s hs)

theorem trace_go_mono (recipes : List Recipe) (x : Nat → ℚ) :
    ∀ (n : Nat) (t : TTask) (v : List Product) (res : List Line × List Product),
      trace_go recipes x n t v = some res →
      trace_go recipes x (n + 1) t v = some res := by
  intro n
  induction n with
  | zero =>
    intro t v res h
    simp [trace_go] at h
  | succ n ih =>
    intro t v res h
    cases t with
    | prod p req ind =>
      simp only [trace_go] at h ⊢
      by_cases hv : p ∈ v
      · rw [if_pos hv] at h ⊢
        exact h
      · rw [if_neg hv] at h ⊢
        by_cases hraw : p ∈ raw_materials recipes
        · rw [if_pos hraw] at h ⊢
          exact h
        · rw [if_neg hraw] at h ⊢
          by_cases hempty :
              recipes.filter (fun r => (getOpt r.outputs p).isSome) = []
          · rw [if_pos hempty] at h ⊢
            exact h
          · rw [if_neg hempty] at h ⊢
            cases hrec : trace_go recipes x n
                (TTask.recs (recipes.filter fun r => (getOpt r.outputs p).isSome)
                  p req ind) (p :: v) with
            | none =>
              simp only [hrec] at h
              exact Option.noConfusion h
            | some res2 =>
              simp only [hrec] at h
              simp only [ih _ _ _ hrec]
              exact h
    | recs rs p req ind =>
      cases rs with
      | nil =>
        simp only [trace_go] at h ⊢
        exact h
      | cons r rest =>
        simp only [trace_go] at h ⊢
        by_cases hxr : 0 < x r.recipe_id
        · rw [if_pos hxr] at h ⊢
          cases h1 : trace_go recipes x n
              (TTask.ings r.ingredients
                (x r.recipe_id * scale2 req (getD0 r.outputs p * x r.recipe_id))
                ind) v with
          | none =>
            simp only [h1] at h
            exact Option.noConfusion h
          | some res1 =>
            obtain ⟨ls1, v1⟩ := res1
            simp only [h1] at h
            simp only [ih _ _ _ h1]
            cases h2 : trace_go recipes x n (TTask.recs rest p req ind) v1 with
            | none =>
              simp only [h2] at h
              exact Option.noConfusion h
            | some res2 =>
              simp only [h2] at h
              simp only [ih _ _ _ h2]
              exact h
        · rw [if_neg hxr] at h ⊢
          exact ih _ _ _ h
    | ings l mult ind =>
      cases l with
      | nil =>
        simp only [trace_go] at h ⊢
        exact h
      | cons iv rest =>
        obtain ⟨ing, irate⟩ := iv
        simp only [trace_go] at h
        conv_lhs => rw [trace_go]
        cases h1 : trace_go recipes x n
            (TTask.prod ing (irate * mult) (ind + 4)) v with
        | none =>
          simp only [h1] at h
          exact Option.noConfusion h
        | some res1 =>
          obtain ⟨ls1, v1⟩ := res1
          simp only [h1] at h
          simp only [ih _ _ _ h1]
          cases h2 : trace_go recipes x n (TTask.ings rest mult ind) v1 with
          | none =>
            simp only [h2] at h
            exact Option.noConfusion h
          | some res2 =>
            simp only [h2] at h
            simp only [ih _ _ _ h2]
            exact h

theorem trace_go_mono_le (recipes : List Recipe) (x : Nat → ℚ)
    {n m : Nat} {t : TTask} {v : List Product} {res : List Line × List Product}
    (hnm : n ≤ m) (h : trace_go recipes x n t v = some res) :
    trace_go recipes x m t v = some res := by
  induction m, hnm using Nat.le_induction with
  | base => exact h
  | succ m _ ihm => exact trace_go_mono recipes x m t v res ihm

theorem trace_go_nodup (recipes : List Recipe) (x : Nat → ℚ) :
    ∀ (n : Nat) (t : TTask) (v : List Product) (ls : List Line)
      (w : List Product), trace_go recipes x n t v = some (ls, w) →
      v.Nodup → w.Nodup := by
  intro n
  induction n with
  | zero =>
    intro t v ls w h
    simp [trace_go] at h
  | succ n ih =>
    intro t v ls w h hnd
    cases t with
    | prod p req ind =>
      simp only [trace_go] at h
      by_cases hv : p ∈ v
      · rw [if_pos hv] at h
        simp only [Option.some.injEq, Prod.mk.injEq] at h
        exact h.2 ▸ hnd
      · rw [if_neg hv] at h
        have hpv : (p :: v).Nodup := List.nodup_cons.mpr ⟨hv, hnd⟩
        by_cases hraw : p ∈ raw_materials recipes
        · rw [if_pos hraw] at h
          simp only [Option.some.injEq, Prod.mk.injEq] at h
          exact h.2 ▸ hpv
        · rw [if_neg hraw] at h
          by_cases hempty :
              recipes.filter (fun r => (getOpt r.outputs p).isSome) = []
          · rw [if_pos hempty] at h
            simp only [Option.some.injEq, Prod.mk.injEq] at h
            exact h.2 ▸ hpv
          · rw [if_neg hempty] at h
            cases hrec : trace_go recipes x n
                (TTask.recs (recipes.filter fun r => (getOpt r.outputs p).isSome)
                  p req ind) (p :: v) with
            | none =>
              simp only [hrec] at h
              exact Option.noConfusion h
            | some res =>
              obtain ⟨ls2, v2⟩ := res
              simp only [hrec, Option.some.injEq, Prod.mk.injEq] at h
              exact h.2 ▸ (ih _ _ _ _ hrec hpv).erase p
    | recs rs p req ind =>
      cases rs with
      | nil =>
        simp only [trace_go, Option.some.injEq, Prod.mk.injEq] at h
        exact h.2 ▸ hnd
      | cons r rest =>
        simp only [trace_go] at h
        by_cases hxr : 0 < x r.recipe_id
        · rw [if_pos hxr] at h
          cases h1 : trace_go recipes x n
              (TTask.ings r.ingredients
                (x r.recipe_id * scale2 req (getD0 r.outputs p * x r.recipe_id))
                ind) v with
          | none =>
            simp only [h1] at h
            exact Option.noConfusion h
          | some res1 =>
            obtain ⟨ls1, v1⟩ := res1
            simp only [h1] at h
            cases h2 : trace_go recipes x n (TTask.recs rest p req ind) v1 with
            | none =>
              simp only [h2] at h
              exact Option.noConfusion h
            | some res2 =>
              obtain ⟨ls2, v2⟩ := res2
              simp only [h2, Option.some.injEq, Prod.mk.injEq] at h
              exact h.2 ▸ ih _ _ _ _ h2 (ih _ _ _ _ h1 hnd)
        · rw [if_neg hxr] at h
          exact ih _ _ _ _ h hnd
    | ings l mult ind =>
      cases l with
      | nil =>
        simp only [trace_go, Option.some.injEq, Prod.mk.injEq] at h
        exact h.2 ▸ hnd
      | cons iv rest =>
        obtain ⟨ing, irate⟩ := iv
        simp only [trace_go] at h
        cases h1 : trace_go recipes x n
            (TTask.prod ing (irate * mult) (ind + 4)) v with
        | none =>
          simp only [h1] at h
          exact Option.noConfusion h
        | some res1 =>
          obtain ⟨ls1, v1⟩ := res1
          simp only [h1] at h
          cases h2 : trace_go recipes x n (TTask.ings rest mult ind) v1 with
          | none =>
            simp only [h2] at h
            exact Option.noConfusion h
          | some res2 =>
            obtain ⟨ls2, v2⟩ := res2
            simp only [h2, Option.some.injEq, Prod.mk.injEq] at h
            exact h.2 ▸ ih _ _ _ _ h2 (ih _ _ _ _ h1 hnd)

/-! ### Builder2 tracer: termination measure -/

theorem unseen_le_of_subset (recipes : List Recipe) {v w : List Product}
    (h : ∀ s, s ∈ v → s ∈ w) : unseen recipes w ≤ unseen recipes v := by
  apply Finset.card_le_card
  apply Finset.monotone_filter_right
  intro a hw hv
  exact hw (h a hv)

theorem unseen_cons_lt (recipes : List Recipe) {p : Product} {v : List Product}
    (hp : p ∈ all_products recipes) (hv : p ∉ v) :
    unseen recipes (p :: v) < unseen recipes v := by
  apply Finset.card_lt_card
  constructor
  · apply Finset.monotone_filter_right
    intro a hcons hav
    exact hcons (List.mem_cons_of_mem _ hav)
  · intro hsub
    have hpmem : p ∈ (all_products recipes).toFinset.filter fun q => q ∉ v :=
      Finset.mem_filter.mpr ⟨List.mem_toFinset.mpr hp, hv⟩
    have := Finset.mem_filter.mp (hsub hpmem)
    exact this.2 (List.mem_cons_self p v)

theorem exists_fuel_ings (recipes : List Recipe) (x : Nat → ℚ) (m : Nat)
    (H : ∀ w, unseen recipes w ≤ m → ∀ p req ind,
      ∃ n res, trace_go recipes x n (TTask.prod p req ind) w = some res) :
    ∀ (l : List (Product × ℚ)) (mult : ℚ) (ind : Nat) (w : List Product),
      unseen recipes w ≤ m →
      ∃ n ls w2, trace_go recipes x n (TTask.ings l mult ind) w = some (ls, w2) ∧
        unseen recipes w2 ≤ m := by
  intro l
  induction l with
  | nil =>
    intro mult ind w hw
    exact ⟨1, [], w, by simp [trace_go], hw⟩
  | cons iv rest ih =>
    intro mult ind w hw
    obtain ⟨ing, irate⟩ := iv
    obtain ⟨n1, res1, h1⟩ := H w hw ing (irate * mult) (ind + 4)
    obtain ⟨ls1, w1⟩ := res1
    have hw1 : unseen recipes w1 ≤ m :=
      le_trans
        (unseen_le_of_subset recipes
          (trace_go_visited_subset recipes x _ _ _ _ _ h1)) hw
    obtain ⟨n2, ls2, w2, h2, hw2⟩ := ih mult ind w1 hw1
    refine ⟨max n1 n2 + 1, ls1 ++ ls2, w2, ?_, hw2⟩
    have h1m : trace_go recipes x (max n1 n2)
        (TTask.prod ing (irate * mult) (ind + 4)) w = some (ls1, w1) :=
      trace_go_mono_le recipes x (le_max_left n1 n2) h1
    have h2m : trace_go recipes x (max n1 n2)
        (TTask.ings rest mult ind) w1 = some (ls2, w2) :=
      trace_go_mono_le recipes x (le_max_right n1 n2) h2
    conv_lhs => rw [trace_go]
    simp only [h1m, h2m]

theorem exists_fuel_recs (recipes : List Recipe) (x : Nat → ℚ) (m : Nat)
    (H : ∀ w, unseen recipes w ≤ m → ∀ p req ind,
      ∃ n res, trace_go recipes x n (TTask.prod p req ind) w = some res) :
    ∀ (rs : List Recipe) (p : Product) (req : ℚ) (ind : Nat)
      (w : List Product), unseen recipes w ≤ m →
      ∃ n ls w2, trace_go recipes x n (TTask.recs rs p req ind) w = some (ls, w2) ∧
        unseen recipes w2 ≤ m := by
  intro rs
  induction rs with
  | nil =>
    intro p req ind w hw
    exact ⟨1, [], w, by simp [trace_go], hw⟩
  | cons r rest ih =>
    intro p req ind w hw
    by_cases hxr : 0 < x r.recipe_id
    · obtain ⟨n1, ls1, w1, h1, hw1⟩ := exists_fuel_ings recipes x m H
        r.ingredients
        (x r.recipe_id * scale2 req (getD0 r.outputs p * x r.recipe_id)) ind w hw
      obtain ⟨n2, ls2, w2, h2, hw2⟩ := ih p req ind w1 hw1
      refine ⟨max n1 n2 + 1,
        useLine ind r (x r.recipe_id) p req :: (ls1 ++ ls2), w2, ?_, hw2⟩
      have h1m : trace_go recipes x (max n1 n2)
          (TTask.ings r.ingredients
            (x r.recipe_id * scale2 req (getD0 r.outputs p * x r.recipe_id))
            ind) w = some (ls1, w1) :=
        trace_go_mono_le recipes x (le_max_left n1 n2) h1
      have h2m : trace_go recipes x (max n1 n2)
          (TTask.recs rest p req ind) w1 = some (ls2, w2) :=
        trace_go_mono_le recipes x (le_max_right n1 n2) h2
      conv_lhs => rw [trace_go]
      simp only [if_pos hxr, h1m, h2m]
    · obtain ⟨n2, ls2, w2, h2, hw2⟩ := ih p req ind w hw
      refine ⟨n2 + 1, ls2, w2, ?_, hw2⟩
      conv_lhs => rw [trace_go]
      simp only [if_neg hxr, h2]

theorem exists_fuel_prod (recipes : List Recipe) (x : Nat → ℚ) :
    ∀ (k : Nat) (v : List Product), unseen recipes v ≤ k →
      ∀ (p : Product) (req : ℚ) (ind : Nat),
      ∃ n res, trace_go recipes x n (TTask.prod p req ind) v = some res := by
  intro k
  induction k using Nat.strong_induction_on with
  | _ k IH =>
    intro v hv p req ind
    by_cases hvp : p ∈ v
    · exact ⟨1, ([Line.cycle ind p], v), by simp [trace_go, hvp]⟩
    by_cases hraw : p ∈ raw_materials recipes
    · exact ⟨1, ([Line.raw ind p req], p :: v),
        by simp [trace_go, hvp, hraw]⟩
    by_cases hempty : recipes.filter (fun r => (getOpt r.outputs p).isSome) = []
    · exact ⟨1, ([Line.noRecipe ind p req], p :: v),
        by simp [trace_go, hvp, hraw, hempty]⟩
    · have hpall : p ∈ all_products recipes := by
        obtain ⟨r, hr⟩ := List.exists_mem_of_ne_nil _ hempty
        have hr2 := List.mem_filter.mp hr
        have : p ∈ produced_products recipes :=
          (mem_produced_iff recipes p).mpr ⟨r, hr2.1, by simpa using hr2.2⟩
        simp only [all_products, List.mem_dedup, List.mem_append]
        exact Or.inl this
      have hlt : unseen recipes (p :: v) < unseen recipes v :=
        unseen_cons_lt recipes hpall hvp
      have hk : unseen recipes (p :: v) < k := lt_of_lt_of_le hlt hv
      have H : ∀ w, unseen recipes w ≤ unseen recipes (p :: v) →
          ∀ p2 req2 ind2,
          ∃ n res, trace_go recipes x n (TTask.prod p2 req2 ind2) w = some res :=
        IH (unseen recipes (p :: v)) hk
      obtain ⟨n, ls, w2, hres, _⟩ := exists_fuel_recs recipes x
        (unseen recipes (p :: v)) H
        (recipes.filter fun r => (getOpt r.outputs p).isSome) p req ind
        (p :: v) le_rfl
      refine ⟨n + 1, (ls, w2.erase p), ?_⟩
      conv_lhs => rw [trace_go]
      simp only [if_neg hvp, if_neg hraw, if_neg hempty, hres]

/-- C2 (amended): Builder2's `trace_production` terminates on every recipe
set, solved plan, product, required rate, and starting visited set (some
finite fuel suffices); Builder.py's `print_chain`, which has no cycle
guard, does not share this property (see the self-loop counterexample). -/
theorem trace_production_terminates (recipes : List Recipe) (x : Nat → ℚ)
    (p : Product) (req : ℚ) (ind : Nat) (v : List Product) :
    ∃ n ls w, trace_go recipes x n (TTask.prod p req ind) v = some (ls, w) := by
  obtain ⟨n, res, h⟩ :=
    exists_fuel_prod recipes x (unseen recipes v) v le_rfl p req ind
  exact ⟨n, res.1, res.2, h⟩

/-! ### Concrete scenarios -/

theorem selfLoop_pchain_none : ∀ n,
    (∀ ind, pchain_go selfLoopRecipes levelOne n (PTask.prod "B" 1 ind) = none) ∧
    (∀ ind, pchain_go selfLoopRecipes levelOne n
      (PTask.ings [("B", 1)] 1 ind) = none) := by
  intro n
  induction n with
  | zero => exact ⟨fun _ => rfl, fun _ => rfl⟩
  | succ n ih =>
    constructor
    · intro ind
      have hraw : ("B" : Product) ∉ raw_materials selfLoopRecipes := by decide
      have hpb : produced_by selfLoopRecipes levelOne "B" =
          some ⟨0, "M", "T", [("B", 1)], [("B", 1)]⟩ := by decide
      norm_num [pchain_go, hraw, hpb, levelOne, getOpt, getD0, scale1, ih.2]
    · intro ind
      norm_num [pchain_go, ih.1]

/-- C2 counterexample: Builder.py's `print_chain` does not terminate on a
self-loop recipe run at positive solved level — no amount of fuel
completes the call for the product it produces and consumes. -/
theorem print_chain_diverges_on_self_loop :
    ¬ PrintChainTerminates selfLoopRecipes levelOne "B" 1 := by
  rintro ⟨n, hn⟩
  rw [(selfLoop_pchain_none n).1 0] at hn
  simp at hn

theorem trace_recs_visits_all (recipes : List Recipe) (x : Nat → ℚ) :
    ∀ (n : Nat) (rs : List Recipe) (p : Product) (req : ℚ) (ind : Nat)
      (w : List Product) (ls : List Line) (w2 : List Product),
      trace_go recipes x n (TTask.recs rs p req ind) w = some (ls, w2) →
      ∀ r ∈ rs, 0 < x r.recipe_id →
        useLine ind r (x r.recipe_id) p req ∈ ls := by
  intro n
  induction n with
  | zero =>
    intro rs p req ind w ls w2 h
    simp [trace_go] at h
  | succ n ih =>
    intro rs p req ind w ls w2 h r hr hxr
    cases rs with
    | nil => simp at hr
    | cons r0 rest =>
      simp only [trace_go] at h
      by_cases hx0 : 0 < x r0.recipe_id
      · rw [if_pos hx0] at h
        cases h1 : trace_go recipes x n
            (TTask.ings r0.ingredients
              (x r0.recipe_id * scale2 req (getD0 r0.outputs p * x r0.recipe_id))
              ind) w with
        | none =>
          simp only [h1] at h
          exact Option.noConfusion h
        | some res1 =>
          obtain ⟨ls1, v1⟩ := res1
          simp only [h1] at h
          cases h2 : trace_go recipes x n (TTask.recs rest p req ind) v1 with
          | none =>
            simp only [h2] at h
            exact Option.noConfusion h
          | some res2 =>
            obtain ⟨ls2, v2⟩ := res2
            simp only [h2, Option.some.injEq, Prod.mk.injEq] at h
            rcases List.mem_cons.mp hr with rfl | hr2
            · exact h.1 ▸ List.mem_cons_self _ _
            · exact h.1 ▸ List.mem_cons_of_mem _
                (List.mem_append_right ls1
                  (ih _ _ _ _ _ _ _ h2 r hr2 hxr))
      · rw [if_neg hx0] at h
        rcases List.mem_cons.mp hr with rfl | hr2
        · exact absurd hxr hx0
        · exact ih _ _ _ _ _ _ _ h r hr2 hxr

/-- C4 (amended): Builder2's tracer visits every recipe with positive
solved level that produces the traced product, printing for each one a
machine line scaled by that recipe's own factor `required / produced_rate`
(as if it alone supplied the full required rate); Builder.py's
`print_chain` instead expands only `produced_by`, the first positive-level
producing recipe (see the two-producer counterexample). -/
theorem trace_visits_all_producers (recipes : List Recipe) (x : Nat → ℚ)
    (n : Nat) (p : Product) (req : ℚ) (ind : Nat) (v : List Product)
    (ls : List Line) (w : List Product)
    (h : trace_go recipes x n (TTask.prod p req ind) v = some (ls, w))
    (hv : p ∉ v) (hraw : p ∉ raw_materials recipes) :
    ∀ r ∈ recipes, (getOpt r.outputs p).isSome → 0 < x r.recipe_id →
      useLine ind r (x r.recipe_id) p req ∈ ls := by
  intro r hr hout hxr
  cases n with
  | zero => simp [trace_go] at h
  | succ n =>
    simp only [trace_go] at h
    rw [if_neg hv, if_neg hraw] at h
    have hmem : r ∈ recipes.filter (fun r => (getOpt r.outputs p).isSome) :=
      List.mem_filter.mpr ⟨hr, by simpa using hout⟩
    have hne : recipes.filter (fun r => (getOpt r.outputs p).isSome) ≠ [] := by
      intro hempty
      rw [hempty] at hmem
      simp at hmem
    rw [if_neg hne] at h
    cases hrec : trace_go recipes x n
        (TTask.recs (recipes.filter fun r => (getOpt r.outputs p).isSome)
          p req ind) (p :: v) with
    | none =>
      simp only [hrec] at h
      exact Option.noConfusion h
    | some res =>
      obtain ⟨ls2, v2⟩ := res
      simp only [hrec, Option.some.injEq, Prod.mk.injEq] at h
      exact h.1 ▸ trace_recs_visits_all recipes x n _ p req ind _ _ _ hrec
        r hmem hxr

/-- C4 witness: with two positive-level producers of Q, the traced lines
contain both machine lines, each with its own scale factor. -/
theorem trace_visits_all_producers_witness :
    useLine 0 ⟨0, "M0", "T", [("Q", 1)], [("A", 2)]⟩ (levelOne 0) "Q" 6 ∈
      [Line.use 0 "M0" "T" 6 "Q" 6, Line.raw 4 "A" 12,
       Line.use 0 "M1" "T" 2 "Q" 6, Line.raw 4 "C" 10] ∧
    useLine 0 ⟨1, "M1", "T", [("Q", 3)], [("C", 5)]⟩ (levelOne 1) "Q" 6 ∈
      [Line.use 0 "M0" "T" 6 "Q" 6, Line.raw 4 "A" 12,
       Line.use 0 "M1" "T" 2 "Q" 6, Line.raw 4 "C" 10] := by
  have h : trace_go twoProducerRecipes levelOne 10 (TTask.prod "Q" 6 0) [] =
      some ([Line.use 0 "M0" "T" 6 "Q" 6, Line.raw 4 "A" 12,
             Line.use 0 "M1" "T" 2 "Q" 6, Line.raw 4 "C" 10], ["C", "A"]) := by
    norm_num [trace_go, twoProducerRecipes, levelOne, raw_materials,
      produced_products, consumed_products, getOpt, getD0, scale2, useLine,
      List.dedup, List.pwFilter]
    decide
  constructor
  · exact trace_visits_all_producers twoProducerRecipes levelOne 10 "Q" 6 0
      [] _ _ h (by decide) (by decide)
      ⟨0, "M0", "T", [("Q", 1)], [("A", 2)]⟩ (by decide) (by decide)
      (by decide)
  · exact trace_visits_all_producers twoProducerRecipes levelOne 10 "Q" 6 0
      [] _ _ h (by decide) (by decide)
      ⟨1, "M1", "T", [("Q", 3)], [("C", 5)]⟩ (by decide) (by decide)
      (by decide)

/-- C4 counterexample: Builder.py's `print_chain` expands only the first
positive-level producer of Q (machine M0); no line for the second
producer M1 appears in its output. -/
theorem print_chain_visits_only_first_producer :
    pchain_go twoProducerRecipes levelOne 10 (PTask.prod "Q" 6 0) =
      some [Line.use 0 "M0" "T" 6 "Q" 6, Line.raw 4 "A" 12] ∧
    Line.use 0 "M1" "T" 2 "Q" 6 ∉
      [Line.use 0 "M0" "T" 6 "Q" 6, Line.raw 4 "A" 12] := by
  constructor
  · norm_num [pchain_go, twoProducerRecipes, levelOne, raw_materials,
      produced_products, consumed_products, getOpt, getD0, scale1,
      produced_by, List.dedup, List.pwFilter]
    decide
  · decide

/-- C5 (amended): Builder2's tracer removes the product from the visited
set only on the return path that iterates producing recipes; on the
raw-material and missing-recipe return paths the product stays in the set
(the call returns guard `p :: v`), so a raw material needed by two
different branches is reported as raw the first time and as a
cycle-detected leaf afterwards (see the shared-raw counterexample). -/
theorem visited_guard_behavior (recipes : List Recipe) (x : Nat → ℚ)
    (n : Nat) (p : Product) (req : ℚ) (ind : Nat) (v : List Product)
    (hv : p ∉ v) :
    (p ∈ raw_materials recipes →
      trace_go recipes x (n + 1) (TTask.prod p req ind) v =
        some ([Line.raw ind p req], p :: v)) ∧
    (p ∉ raw_materials recipes →
      recipes.filter (fun r => (getOpt r.outputs p).isSome) = [] →
      trace_go recipes x (n + 1) (TTask.prod p req ind) v =
        some ([Line.noRecipe ind p req], p :: v)) ∧
    (v.Nodup → ∀ ls w, trace_go recipes x n (TTask.prod p req ind) v =
        some (ls, w) →
      p ∉ raw_materials recipes →
      recipes.filter (fun r => (getOpt r.outputs p).isSome) ≠ [] →
      p ∉ w) := by
  refine ⟨?_, ?_, ?_⟩
  · intro hraw
    conv_lhs => rw [trace_go]
    rw [if_neg hv, if_pos hraw]
  · intro hraw hempty
    conv_lhs => rw [trace_go]
    rw [if_neg hv, if_neg hraw, if_pos hempty]
  · intro hnd ls w h hraw hempty
    cases n with
    | zero => simp [trace_go] at h
    | succ n =>
      simp only [trace_go] at h
      rw [if_neg hv, if_neg hraw, if_neg hempty] at h
      cases hrec : trace_go recipes x n
          (TTask.recs (recipes.filter fun r => (getOpt r.outputs p).isSome)
            p req ind) (p :: v) with
      | none =>
        simp only [hrec] at h
        exact Option.noConfusion h
      | some res =>
        obtain ⟨ls2, v2⟩ := res
        simp only [hrec, Option.some.injEq, Prod.mk.injEq] at h
        have hnd2 : v2.Nodup :=
          trace_go_nodup recipes x n _ _ _ _ hrec
            (List.nodup_cons.mpr ⟨hv, hnd⟩)
        rw [← h.2]
        intro hmem
        exact ((hnd2.mem_erase_iff).mp hmem).1 rfl

/-- C5 witness: the guard facts at concrete calls — a raw product and an
unknown product stay on the guard, while an expanded product is absent
from the final guard. -/
theorem visited_guard_behavior_witness :
    trace_go demoChain levelOne 1 (TTask.prod "A" 5 0) [] =
      some ([Line.raw 0 "A" 5], ["A"]) ∧
    trace_go demoChain levelOne 1 (TTask.prod "Z" 5 0) [] =
      some ([Line.noRecipe 0 "Z" 5], ["Z"]) ∧
    "B" ∉ (["A"] : List Product) := by
  refine ⟨?_, ?_, ?_⟩
  · exact (visited_guard_behavior demoChain levelOne 0 "A" 5 0 []
      (by decide)).1 (by decide)
  · exact (visited_guard_behavior demoChain levelOne 0 "Z" 5 0 []
      (by decide)).2.1 (by decide) (by decide)
  · have h : trace_go demoChain levelOne 10 (TTask.prod "B" 6 0) [] =
        some ([Line.use 0 "M0" "T" 3 "B" 6, Line.raw 4 "A" 9], ["A"]) := by
      norm_num [trace_go, demoChain, levelOne, raw_materials,
        produced_products, consumed_products, getOpt, getD0, scale2, useLine,
        List.dedup, List.pwFilter]
      decide
    exact (visited_guard_behavior demoChain levelOne 10 "B" 6 0 []
      (by decide)).2.2 (by decide) _ _ h (by decide) (by decide)

/-- C5 counterexample: in the shared-raw scenario the raw material W is
reported as a raw material on the first branch but as a cycle on the
second, and the final guard still contains W — the product is not removed
from the guard on every return path. -/
theorem raw_material_reported_as_cycle :
    trace_go sharedRawRecipes levelOne 20 (TTask.prod "TP" 1 0) [] =
      some ([Line.use 0 "M0" "T" 1 "TP" 1,
             Line.use 4 "M1" "T" 1 "A" 1, Line.raw 8 "W" 1,
             Line.use 4 "M2" "T" 1 "B" 1, Line.cycle 8 "W"], ["W"]) ∧
    Line.cycle 8 "W" ∈
      [Line.use 0 "M0" "T" 1 "TP" 1,
       Line.use 4 "M1" "T" 1 "A" 1, Line.raw 8 "W" 1,
       Line.use 4 "M2" "T" 1 "B" 1, Line.cycle 8 "W"] ∧
    (["W"] : List Product) ≠ [] := by
  refine ⟨?_, by decide, by decide⟩
  norm_num [trace_go, sharedRawRecipes, levelOne, raw_materials,
    produced_products, consumed_products, getOpt, getD0, scale2, useLine,
    List.dedup, List.pwFilter]
  decide

theorem trace_recs_skips_idle (recipes : List Recipe) (x : Nat → ℚ) :
    ∀ (rs : List Recipe) (n : Nat) (p : Product) (req : ℚ) (ind : Nat)
      (w : List Product), (∀ r ∈ rs, ¬0 < x r.recipe_id) → rs.length < n →
      trace_go recipes x n (TTask.recs rs p req ind) w = some ([], w) := by
  intro rs
  induction rs with
  | nil =>
    intro n p req ind w _ hn
    cases n with
    | zero => omega
    | succ n => simp [trace_go]
  | cons r rest ih =>
    intro n p req ind w hall hn
    cases n with
    | zero => omega
    | succ n =>
      conv_lhs => rw [trace_go]
      rw [if_neg (hall r (List.mem_cons_self r rest))]
      exact ih n p req ind w (fun r2 hr2 => hall r2 (List.mem_cons_of_mem _ hr2))
        (by simpa using hn)

/-- C6 (amended): when no positive-level recipe produces a non-raw,
non-visited product, Builder.py's `print_chain` emits the
no-on-site-recipe fallback line with the required rate (also when
producers exist only at level 0), whereas Builder2's `trace_production`
emits the fallback only when no recipe at all produces the product — if
producers exist but all have level 0 it prints nothing for that product
and returns with the guard restored. -/
theorem fallback_line_behavior :
    (∀ (recipes : List Recipe) (x : Nat → ℚ) (n : Nat) (p : Product)
      (req : ℚ) (ind : Nat), p ∉ raw_materials recipes →
      produced_by recipes x p = none →
      pchain_go recipes x (n + 1) (PTask.prod p req ind) =
        some [Line.noRecipe ind p req]) ∧
    (∀ (recipes : List Recipe) (x : Nat → ℚ) (n : Nat) (p : Product)
      (req : ℚ) (ind : Nat) (v : List Product), p ∉ v →
      p ∉ raw_materials recipes →
      recipes.filter (fun r => (getOpt r.outputs p).isSome) ≠ [] →
      (∀ r ∈ recipes, (getOpt r.outputs p).isSome → ¬0 < x r.recipe_id) →
      (recipes.filter (fun r => (getOpt r.outputs p).isSome)).length < n →
      trace_go recipes x (n + 1) (TTask.prod p req ind) v = some ([], v)) := by
  constructor
  · intro recipes x n p req ind hraw hpb
    conv_lhs => rw [pchain_go]
    rw [if_neg hraw]
    simp only [hpb]
  · intro recipes x n p req ind v hv hraw hne hidle hlen
    conv_lhs => rw [trace_go]
    rw [if_neg hv, if_neg hraw, if_neg hne]
    have hskip : trace_go recipes x n
        (TTask.recs (recipes.filter fun r => (getOpt r.outputs p).isSome)
          p req ind) (p :: v) = some ([], p :: v) :=
      trace_recs_skips_idle recipes x _ n p req ind (p :: v)
        (fun r hr => hidle r (List.mem_filter.mp hr).1
          (by simpa using (List.mem_filter.mp hr).2)) hlen
    simp only [hskip]
    rw [List.erase_cons_head]

/-- C6 witness: with the idle producer of Q at level 0, Builder.py prints
the fallback line while Builder2 prints nothing and restores the guard. -/
theorem fallback_line_behavior_witness :
    pchain_go idleProducerRecipes levelZero 3 (PTask.prod "Q" 5 0) =
      some [Line.noRecipe 0 "Q" 5] ∧
    trace_go idleProducerRecipes levelZero 3 (TTask.prod "Q" 5 0) [] =
      some ([], []) :=
  ⟨fallback_line_behavior.1 idleProducerRecipes levelZero 2 "Q" 5 0
      (by decide) (by decide),
   fallback_line_behavior.2 idleProducerRecipes levelZero 2 "Q" 5 0 []
      (by decide) (by decide) (by decide) (by decide) (by decide)⟩

/-- C6 counterexample: with a producer of Q existing only at level 0,
Builder2's tracer emits no fallback line at all — its output for Q is
empty, against the claimed no-on-site-recipe message. -/
theorem idle_producer_emits_no_fallback :
    trace_go idleProducerRecipes levelZero 5 (TTask.prod "Q" 5 0) [] =
      some ([], []) ∧
    ∀ req : ℚ, Line.noRecipe 0 "Q" req ∉ ([] : List Line) := by
  constructor
  · norm_num [trace_go, idleProducerRecipes, levelZero, raw_materials,
      produced_products, consumed_products, getOpt, getD0, scale2, useLine,
      List.dedup, List.pwFilter]
  · intro req
    simp

end Techtonica
